import Mathlib

/-!
Verification of the gakido HTTP client library core against its
natural-language specification.  Each section shallowly embeds one Python
module of the library (`gakido/headers.py`, `gakido/pool.py`,
`gakido/socks5.py`, `gakido/compression.py`, `gakido/backoff.py`,
`gakido/rate_limit.py`, `gakido/impersonation/profiles.py`) as executable
Lean definitions, and the theorems at the end settle the specification's
claims about those definitions.
-/

set_option maxHeartbeats 1000000

namespace Gakido

/-! ## Header canonicalizer (`gakido/headers.py`)

Python strings are modelled as Lean `String`; a `dict[str, tuple[str, str]]`
is modelled as an association list that preserves insertion order, with
Python-dict update semantics (an existing key keeps its position and gets the
new value; a new key is appended at the end). -/

/-- A header entry: (name, value). -/
abbrev Hdr := String × String

/-- ASCII lowercase of one character, modelling Python `str.lower` on the
ASCII header names the library uses. -/
def lowerChar (c : Char) : Char :=
  if 'A' ≤ c && c ≤ 'Z' then Char.ofNat (c.toNat + 32) else c

/-- Python `s.lower()` (ASCII model). -/
def pyLower (s : String) : String := ⟨s.data.map lowerChar⟩

/-- The bytes stripped by `_sanitize_header`: CR, LF, NUL. -/
def isBadChar (c : Char) : Bool :=
  c = '\r' || c = '\n' || c = '\x00'

/-- `_sanitize_header` applied to one string:
`s.replace("\r","").replace("\n","").replace("\x00","")`, i.e. delete every
CR, LF and NUL character. -/
def sanitizeStr (s : String) : String :=
  ⟨s.data.filter (fun c => !isBadChar c)⟩

/-- Insertion-ordered map from lowercased names to header entries,
modelling the Python dict `merged: dict[str, tuple[str, str]]`. -/
abbrev HMap := List (String × Hdr)

/-- Python dict assignment `m[k] = v`: replace in place if the key exists,
else append at the end. -/
def hmInsert (m : HMap) (k : String) (v : Hdr) : HMap :=
  if m.any (fun p => p.1 = k) then
    m.map (fun p => if p.1 = k then (k, v) else p)
  else
    m ++ [(k, v)]

/-- Python `m.pop(k)` guarded by `k in m`: return the stored value and the
map without that (unique) key, or `none` when absent. -/
def hmPop (m : HMap) (k : String) : Option (Hdr × HMap) :=
  match m with
  | [] => none
  | p :: rest =>
    if p.1 = k then some (p.2, rest)
    else
      match hmPop rest k with
      | some (v, m') => some (v, p :: m')
      | none => none

/-- The merge phase of `canonicalize_headers`: insert sanitized defaults,
then overlay sanitized user entries, keyed by the lowercased name.
`user_headers=None` and `user_headers={}` both correspond to `user = []`. -/
def mergeHeaders (defaults : List Hdr) (user : List Hdr) : HMap :=
  let m := defaults.foldl
    (fun m nv => hmInsert m (pyLower (sanitizeStr nv.1)) (sanitizeStr nv.1, sanitizeStr nv.2)) []
  user.foldl
    (fun m nv => hmInsert m (pyLower (sanitizeStr nv.1)) (sanitizeStr nv.1, sanitizeStr nv.2)) m

/-- The emission loop of `canonicalize_headers`:
`for name in order: if name.lower() in merged: ordered.append(merged.pop(...))`.
Returns the emitted-in-order entries and the remaining map. -/
def emitOrdered : List String → HMap → List Hdr × HMap
  | [], m => ([], m)
  | n :: rest, m =>
    match hmPop m (pyLower n) with
    | some (v, m') =>
      let r := emitOrdered rest m'
      (v :: r.1, r.2)
    | none => emitOrdered rest m

/-- `canonicalize_headers(default_headers, user_headers, order)` from
`gakido/headers.py`. -/
def canonicalize_headers (defaults : List Hdr) (user : List Hdr)
    (order : List String) : List Hdr :=
  let m := mergeHeaders defaults user
  let r := emitOrdered order m
  r.1 ++ r.2.map (fun p => p.2)

/-- The naive merge of the sanitized inputs: the merged dict's values in
insertion order, with no reordering step. -/
def naiveMerge (defaults : List Hdr) (user : List Hdr) : List Hdr :=
  (mergeHeaders defaults user).map (fun p => p.2)

/-- A string is clean when it contains no CR, LF or NUL. -/
def cleanStr (s : String) : Prop :=
  ∀ c ∈ s.data, isBadChar c = false

instance (s : String) : Decidable (cleanStr s) := by
  unfold cleanStr; infer_instance

/-- The first-occurrence deduplication of a list of names (the order in which
the emission loop can pop keys: a repeated order entry finds its key already
removed). -/
def firstDedup : List String → List String
  | [] => []
  | k :: ks => k :: firstDedup (ks.filter (fun x => x ≠ k))
termination_by l => l.length
decreasing_by
  simp only [List.length_cons]
  exact Nat.lt_succ_of_le (List.length_filter_le _ _)

/-- Specification-side description of the first emission phase: the merged
entries whose lowercase name appears in `order`, sequenced by first
occurrence in `order`. -/
def specOrderedPart (m : HMap) (order : List String) : List Hdr :=
  (firstDedup (order.map pyLower)).filterMap
    (fun k => (m.find? (fun p => p.1 = k)).map (fun p => p.2))

/-- Specification-side description of the second emission phase: the merged
entries whose lowercase name is not in `order`, in the merged map's
insertion order. -/
def specRemaining (m : HMap) (order : List String) : List Hdr :=
  (m.filter (fun p => ¬ (order.map pyLower).contains p.1)).map (fun p => p.2)

/-- An entry of the merged map is coherent: its key is the lowercase of the
stored (sanitized) name, and both stored strings are clean. -/
def entryOk (p : String × Hdr) : Prop :=
  p.1 = pyLower p.2.1 ∧ cleanStr p.2.1 ∧ cleanStr p.2.2

/-- The merged-map invariant: coherent entries with pairwise-distinct keys
(a Python dict cannot hold a key twice). -/
def mapOk (m : HMap) : Prop :=
  (∀ p ∈ m, entryOk p) ∧ (m.map (fun p => p.1)).Nodup

/-! ## Connection pool (`gakido/pool.py`)

A `Connection` is modelled by the fields the pool reads: its identity, the
`(scheme, host, port)` triple and the `closed` flag (immutable here, so the
flag records its value at the time the pool touches the connection).  Python
appends released connections at the right end of a bucket and `pop()` takes
from the right end; we model each bucket as a stack whose head is the most
recently released connection — the same LIFO discipline. -/

structure Conn where
  id : Nat
  scheme : String
  host : String
  port : Nat
  closed : Bool
deriving DecidableEq

/-- A pool key, `(scheme, host, port)` exactly as in `ConnectionPool` —
note: no proxy component. -/
abbrev PKey := String × String × Nat

def Conn.key (c : Conn) : PKey := (c.scheme, c.host, c.port)

structure Pool where
  maxPerHost : Nat
  buckets : List (PKey × List Conn)
deriving DecidableEq

def emptyPool (maxPerHost : Nat) : Pool := ⟨maxPerHost, []⟩

def bucketGet (p : Pool) (k : PKey) : List Conn :=
  ((p.buckets.find? (fun b => b.1 = k)).map (fun b => b.2)).getD []

def bucketSet (p : Pool) (k : PKey) (l : List Conn) : Pool :=
  if p.buckets.any (fun b => b.1 = k) then
    ⟨p.maxPerHost, p.buckets.map (fun b => if b.1 = k then (k, l) else b)⟩
  else
    ⟨p.maxPerHost, p.buckets ++ [(k, l)]⟩

/-- The `while self._pools[key]: conn = ...pop(); if not conn.closed: return conn`
loop: pop connections, discarding closed ones, until an open one is found. -/
def popOpen : List Conn → Option Conn × List Conn
  | [] => (none, [])
  | c :: rest => if c.closed then popOpen rest else (some c, rest)

/-- `ConnectionPool.acquire`: returns the popped open connection (`none`
means a fresh `Connection` is dialed instead) and the updated pool. -/
def Pool.acquire (p : Pool) (k : PKey) : Option Conn × Pool :=
  let r := popOpen (bucketGet p k)
  (r.1, bucketSet p k r.2)

/-- `ConnectionPool.release`: a closed connection is dropped; a release into
a full bucket closes the connection instead of storing it; otherwise the
connection is pushed.  (The `defaultdict` materialization of a still-empty
bucket on lookup is omitted: an empty bucket stores no connections.) -/
def Pool.release (p : Pool) (c : Conn) : Pool :=
  if c.closed then p
  else
    let b := bucketGet p c.key
    if p.maxPerHost ≤ b.length then p
    else bucketSet p c.key (c :: b)

/-- `ConnectionPool.close`: close every pooled connection and clear the map. -/
def Pool.closeAll (p : Pool) : Pool := ⟨p.maxPerHost, []⟩

inductive PoolOp where
  | acquire (k : PKey)
  | release (c : Conn)
  | closeAll

def Pool.step (p : Pool) : PoolOp → Pool
  | .acquire k => (p.acquire k).2
  | .release c => p.release c
  | .closeAll => p.closeAll

def Pool.run (p : Pool) : List PoolOp → Pool
  | [] => p
  | op :: ops => (p.step op).run ops

/-- The pool invariant of the claim: every bucket is bounded by
`max_per_host` and holds only connections that were open when inserted. -/
def poolInv (p : Pool) : Prop :=
  ∀ kb ∈ p.buckets, kb.2.length ≤ p.maxPerHost ∧ ∀ c ∈ kb.2, c.closed = false

/-! ## Client pool-key computation (`gakido/client.py`, `_make_request`)

The proxy handling block computes `target_host, target_port` and then calls
`self.pool.acquire(parsed.scheme, target_host, target_port, ...)`.  A proxy
URL is modelled by its parsed components. -/

structure ProxySpec where
  scheme : String
  host : String
  port : Nat
deriving DecidableEq

/-- The `(scheme, host, port)` triple `Client._make_request` passes to
`ConnectionPool.acquire`.  For an `http` proxy the target is the proxy
itself; for `socks5`/`socks5h` the target host/port are kept "for pool
key"; any other proxy scheme raises `ValueError`. -/
def clientPoolKey (scheme host : String) (port : Nat) (proxy : Option ProxySpec) :
    Except String PKey :=
  match proxy with
  | none => .ok (scheme, host, port)
  | some p =>
    let ps := pyLower p.scheme
    if ps = "http" then .ok (scheme, p.host, p.port)
    else if ps = "socks5" ∨ ps = "socks5h" then .ok (scheme, host, port)
    else .error ("Unsupported proxy scheme: " ++ p.scheme)

/-! ## SOCKS5 CONNECT request (`gakido/socks5.py`, `_socks5_connect`)

Byte strings are lists of byte values; the target host is given as its
UTF-8 bytes.  `socket.getaddrinfo` is modelled by a resolver function
(`gaiError` models `socket.gaierror`).  In `_socks5_connect` the four lines
that would switch `atyp`/`addr_bytes` to the locally resolved IP sit after
the `raise` inside the `if not infos:` block and are unreachable, so every
reachable path builds the DOMAINNAME (`ATYP=0x03`) form of the request. -/

inductive AddrInfo where
  | gaiError
  | infos (l : List (List Nat))

/-- `struct.pack("!H", port)`: network-order uint16. -/
def packPort (port : Nat) : List Nat := [port / 256 % 256, port % 256]

/-- The CONNECT request bytes `_socks5_connect` sends (`.error` models the
`ConnectionError` raises before the request is built). -/
def socks5ConnectRequest (resolve : List Nat → AddrInfo) (resolveHostname : Bool)
    (hostBytes : List Nat) (port : Nat) : Except String (List Nat) :=
  -- atyp = 0x03 (DOMAINNAME); addr_bytes = the UTF-8 host bytes.  The
  -- resolution result can only abort the call; it never changes atyp.
  if resolveHostname = false then
    match resolve hostBytes with
    | .gaiError => .error "Failed to resolve"
    | .infos l =>
      if l = [] then .error "No address info"
      else .ok ([0x05, 0x01, 0x00, 0x03] ++ [hostBytes.length % 256] ++ hostBytes ++ packPort port)
  else
    .ok ([0x05, 0x01, 0x00, 0x03] ++ [hostBytes.length % 256] ++ hostBytes ++ packPort port)

/-- `resolve_hostname = proxy_url.startswith("socks5h://")` from
`socks5_handshake`. -/
def resolveHostnameFlag (proxyUrl : String) : Bool :=
  List.isPrefixOf "socks5h://".data proxyUrl.data

/-! ## Compression codec (`gakido/compression.py`)

The third-party codecs (`gzip`, `zlib`, `brotli`) are external to the
repository; they are modelled as a record of decompression functions where
`none` models the exception a codec raises on input it cannot decode.
`BROTLI_AVAILABLE` is the build-time constant. -/

def isSpaceChar (c : Char) : Bool :=
  c = ' ' || c = '\t' || c = '\n' || c = '\r' || c = '\x0b' || c = '\x0c'

/-- Python `s.strip()` (ASCII whitespace model). -/
def pyStrip (s : String) : String :=
  ⟨((s.data.dropWhile isSpaceChar).reverse.dropWhile isSpaceChar).reverse⟩

def splitCommaAux : List Char → List Char → List (List Char)
  | [], cur => [cur.reverse]
  | c :: rest, cur =>
    if c = ',' then cur.reverse :: splitCommaAux rest []
    else splitCommaAux rest (c :: cur)

/-- Python `s.split(",")`. -/
def pySplitComma (s : String) : List String :=
  (splitCommaAux s.data []).map (fun l => ⟨l⟩)

structure Codecs where
  gunzip : List Nat → Option (List Nat)
  inflateRaw : List Nat → Option (List Nat)
  inflateZlib : List Nat → Option (List Nat)
  brDecompress : List Nat → Option (List Nat)
  brotliAvailable : Bool

/-- `_decode_single(body, encoding)`: dispatch on the encoding token; any
codec failure returns the input unchanged; unknown tokens return the input
unchanged. -/
def decodeSingle (c : Codecs) (body : List Nat) (encoding : String) : List Nat :=
  if encoding = "gzip" then (c.gunzip body).getD body
  else if encoding = "deflate" then
    match c.inflateRaw body with
    | some r => r
    | none => (c.inflateZlib body).getD body
  else if encoding = "br" then
    if c.brotliAvailable then (c.brDecompress body).getD body else body
  else body

/-- `decode_body(body, content_encoding)`: empty header or empty body pass
through; otherwise lowercase and strip the header, split on commas, strip
each token and decode in reverse order. -/
def decode_body (c : Codecs) (body : List Nat) (contentEncoding : String) : List Nat :=
  if contentEncoding = "" ∨ body = [] then body
  else
    let encoding := pyStrip (pyLower contentEncoding)
    let encodings := (pySplitComma encoding).map pyStrip
    encodings.reverse.foldl (decodeSingle c) body

/-! ## Retry with backoff (`gakido/backoff.py` and `Client.request`)

One call of the wrapped `_make_request` is modelled by its observable
outcome: a returned response (value plus status code) or a raised exception
that is or is not of a retriable class.  The wrapped function is a map from
the call index to that outcome; delays only pass time and are dropped. -/

inductive CallResult (α : Type) where
  | success (v : α) (status : Nat)
  | failure (retriable : Bool)
deriving DecidableEq

inductive RunOutcome (α : Type) where
  | ok (v : α)
  | retryError
  | raised
deriving DecidableEq

/-- `_default_retryable_status_codes()`. -/
def retryableStatusCodes : List Nat := [408, 429, 500, 502, 503, 504, 507, 511]

/-- The `while attempt < max_attempts` loop of the `retry_with_backoff`
wrapper, with `rem` the remaining attempts and `i` the call index (= number
of calls made so far).  Returns the outcome and the total number of calls. -/
def retryGo (f : Nat → CallResult α) (codes : List Nat) :
    Nat → Nat → RunOutcome α × Nat
  | 0, i => (.retryError, i)
  | rem + 1, i =>
    match f i with
    | .success v s =>
      if s ∈ codes then
        (if rem = 0 then (.retryError, i + 1) else retryGo f codes rem (i + 1))
      else (.ok v, i + 1)
    | .failure true =>
      if rem = 0 then (.retryError, i + 1) else retryGo f codes rem (i + 1)
    | .failure false => (.raised, i + 1)

/-- `retry_with_backoff(max_attempts=...)` applied to `f`. -/
def retry_with_backoff (maxAttempts : Nat) (f : Nat → CallResult α) :
    RunOutcome α × Nat :=
  retryGo f retryableStatusCodes maxAttempts 0

/-- `Client.request`: `max_retries <= 0` calls `_make_request` directly
(one call, no status-code check, exceptions propagate); otherwise it wraps
it with `max_attempts = max_retries + 1`. -/
def clientRequest (maxRetries : Nat) (f : Nat → CallResult α) :
    RunOutcome α × Nat :=
  if maxRetries = 0 then
    match f 0 with
    | .success v _ => (.ok v, 1)
    | .failure _ => (.raised, 1)
  else retry_with_backoff (maxRetries + 1) f

/-! ## Token bucket (`gakido/rate_limit.py`, `TokenBucket`)

Python floats are modelled as rationals.  Each `acquire(n)` call carries
the elapsed time `e1` seen by its first `_refill` and, when the blocking
path sleeps, the elapsed time `e2` seen by the second `_refill`.  `goodRun`
states what the runtime guarantees: elapsed times are non-negative (the
clock is monotonic) and a sleep lasts at least the computed wait time. -/

structure Bucket where
  rate : ℚ
  capacity : ℚ
  tokens : ℚ
deriving DecidableEq

/-- `TokenBucket._refill`: `tokens = min(capacity, tokens + elapsed * rate)`. -/
def Bucket.refill (b : Bucket) (elapsed : ℚ) : Bucket :=
  { b with tokens := min b.capacity (b.tokens + elapsed * b.rate) }

/-- `TokenBucket.__init__(rate, capacity)`: tokens start at capacity. -/
def TokenBucketInit (rate capacity : ℚ) : Bucket := ⟨rate, capacity, capacity⟩

structure AcquireEv where
  blocking : Bool
  n : ℚ
  e1 : ℚ
  e2 : ℚ
deriving DecidableEq

/-- One `TokenBucket.acquire(n)` call: refill, take if enough, otherwise
raise (non-blocking, state unchanged) or sleep, refill again and subtract
(blocking).  Returns the new bucket and the token value observed after each
refill step. -/
def Bucket.acquire (b : Bucket) (ev : AcquireEv) : Bucket × List ℚ :=
  let b1 := b.refill ev.e1
  if ev.n ≤ b1.tokens then ({ b1 with tokens := b1.tokens - ev.n }, [b1.tokens])
  else if ev.blocking = false then (b1, [b1.tokens])
  else
    let b2 := b1.refill ev.e2
    ({ b2 with tokens := b2.tokens - ev.n }, [b1.tokens, b2.tokens])

/-- Run a sequence of acquire calls, collecting every post-refill token
value. -/
def runBucket (b : Bucket) : List AcquireEv → Bucket × List ℚ
  | [] => (b, [])
  | ev :: rest =>
    let r := b.acquire ev
    let r2 := runBucket r.1 rest
    (r2.1, r.2 ++ r2.2)

/-- The guarantees the runtime gives a trace: each requested amount is
positive, elapsed times at the first refill are non-negative, and when the
blocking path sleeps for `(n - tokens) / rate` the second refill sees at
least that much elapsed time. -/
def goodRun : Bucket → List AcquireEv → Prop
  | _, [] => True
  | b, ev :: rest =>
    0 ≤ ev.e1 ∧ 0 < ev.n ∧
    (ev.blocking = true → ¬ ev.n ≤ (b.refill ev.e1).tokens →
      (ev.n - (b.refill ev.e1).tokens) / b.rate ≤ ev.e2) ∧
    goodRun (b.acquire ev).1 rest

/-- The amendment's extra premise: every request is within the burst
capacity. -/
def boundedReq (cap : ℚ) (evs : List AcquireEv) : Prop :=
  ∀ ev ∈ evs, ev.n ≤ cap

/-! ## Profile catalog (`gakido/impersonation/profiles.py`)

`get_profile(name)` returns `copy.deepcopy(PROFILES[name])`.  Python's
object graph is modelled by an explicit heap: addresses are indices into a
cell list, a cell is a leaf or a container of addresses.  `PROFILES` maps
names to root addresses; the alias materialization
`PROFILES[alias] = PROFILES[target]` makes two names share one root
address.  `copy.deepcopy` is modelled by reading the value reachable from
the root (`denote`, with fuel since Python graphs may be cyclic) and
rebuilding it from fresh cells appended at the end of the heap. -/

inductive PyVal where
  | prim (s : String)
  | arr (elems : List Nat)
  | dict (entries : List (String × Nat))
deriving DecidableEq

/-- The addresses a cell points to. -/
def cellPtrs : PyVal → List Nat
  | .prim _ => []
  | .arr es => es
  | .dict es => es.map (fun kv => kv.2)

structure Heap where
  cells : List PyVal
deriving DecidableEq

/-- Every pointer stored in the heap is in range. -/
def heapWF (h : Heap) : Prop :=
  ∀ v ∈ h.cells, ∀ a ∈ cellPtrs v, a < h.cells.length

instance (h : Heap) : Decidable (heapWF h) := by
  unfold heapWF; infer_instance

/-- The value trees Python programs observe. -/
inductive PyTree where
  | prim (s : String)
  | arr (elems : List PyTree)
  | dict (entries : List (String × PyTree))

/-- Read the value reachable from an address (`none` when out of fuel or
the address dangles). -/
def denote (h : Heap) : Nat → Nat → Option PyTree
  | 0, _ => none
  | fuel + 1, a =>
    match h.cells[a]? with
    | none => none
    | some (.prim s) => some (.prim s)
    | some (.arr es) => (es.mapM (fun e => denote h fuel e)).map PyTree.arr
    | some (.dict es) =>
      (es.mapM (fun kv => (denote h fuel kv.2).map (fun t => (kv.1, t)))).map PyTree.dict

mutual
/-- Rebuild a value tree from fresh cells appended at the end of the heap
(the second half of `copy.deepcopy`); returns the new heap and the address
of the copy's root. -/
def allocTree (h : Heap) : PyTree → Heap × Nat
  | .prim s => (⟨h.cells ++ [.prim s]⟩, h.cells.length)
  | .arr es =>
    let r := allocList h es
    (⟨r.1.cells ++ [.arr r.2]⟩, r.1.cells.length)
  | .dict es =>
    let r := allocEntries h es
    (⟨r.1.cells ++ [.dict r.2]⟩, r.1.cells.length)

def allocList (h : Heap) : List PyTree → Heap × List Nat
  | [] => (h, [])
  | t :: ts =>
    let r := allocTree h t
    let r2 := allocList r.1 ts
    (r2.1, r.2 :: r2.2)

def allocEntries (h : Heap) : List (String × PyTree) → Heap × List (String × Nat)
  | [] => (h, [])
  | kv :: ts =>
    let r := allocTree h kv.2
    let r2 := allocEntries r.1 ts
    (r2.1, (kv.1, r.2) :: r2.2)
end

/-- `get_profile(name)`: look the name up in `PROFILES` (aliases share the
target's root address) and deep-copy the profile; `none` models the
`KeyError`-derived failure for unknown names. -/
def get_profile (h : Heap) (profiles : List (String × Nat)) (fuel : Nat)
    (name : String) : Option (Heap × Nat) :=
  match profiles.find? (fun p => p.1 = name) with
  | none => none
  | some p => (denote h fuel p.2).map (fun t => allocTree h t)

/-- The profile value `get_profile` returns (the tree the deep copy
rebuilds). -/
def getProfileTree (h : Heap) (profiles : List (String × Nat)) (fuel : Nat)
    (name : String) : Option PyTree :=
  match profiles.find? (fun p => p.1 = name) with
  | none => none
  | some p => denote h fuel p.2

/-- In-place mutation of one heap cell. -/
def heapUpdate (h : Heap) (a : Nat) (v : PyVal) : Heap := ⟨h.cells.set a v⟩

/-- A sequence of in-place mutations. -/
def applyMuts (h : Heap) (muts : List (Nat × PyVal)) : Heap :=
  muts.foldl (fun hh m => heapUpdate hh m.1 m.2) h

/-! ## Concrete instances used to witness the hypothesis-bearing theorems -/

/-- A concrete codec pack satisfying the round-trip contracts the real
gzip/zlib/brotli codecs provide: each scheme tags its payload with a
distinct leading byte and refuses anything else (as raw-DEFLATE inflation
refuses a zlib-wrapped stream). -/
def toyCodecs : Codecs where
  gunzip := fun l => match l with | 31 :: rest => some rest | _ => none
  inflateRaw := fun l => match l with | 1 :: rest => some rest | _ => none
  inflateZlib := fun l => match l with | 120 :: rest => some rest | _ => none
  brDecompress := fun l => match l with | 7 :: rest => some rest | _ => none
  brotliAvailable := true

/-- A two-cell registry heap: one profile dict whose `"tls"` field points
at a leaf cell. -/
def sampleHeap : Heap := ⟨[.dict [("tls", 1)], .prim "x"]⟩

/-- A catalog with a base name and an alias materialized to the same root
address, as the `PROFILES[alias] = PROFILES[target]` loop does. -/
def sampleProfiles : List (String × Nat) := [("chrome", 0), ("alias", 0)]

/-- The result of one `get_profile` call on the sample registry. -/
def sampleCopy : Heap × Nat :=
  (get_profile sampleHeap sampleProfiles 3 "chrome").getD (⟨[]⟩, 0)

/-! # Proofs

## Header canonicalizer lemmas -/

theorem cleanStr_sanitizeStr (s : String) : cleanStr (sanitizeStr s) := by
  intro c hc
  have h := List.of_mem_filter (p := fun c => !isBadChar c) hc
  simpa using h

theorem hmInsert_entries {P : String × Hdr → Prop} {m : HMap} {k : String} {v : Hdr}
    (hm : ∀ p ∈ m, P p) (hkv : P (k, v)) : ∀ p ∈ hmInsert m k v, P p := by
  intro p hp
  unfold hmInsert at hp
  split at hp
  · obtain ⟨q, hq, hqe⟩ := List.mem_map.1 hp
    by_cases h : q.1 = k
    · rw [if_pos h] at hqe; exact hqe ▸ hkv
    · rw [if_neg h] at hqe; exact hqe ▸ hm q hq
  · rcases List.mem_append.1 hp with h | h
    · exact hm p h
    · rw [List.mem_singleton.1 h]; exact hkv

theorem hmInsert_keys_nodup {m : HMap} {k : String} {v : Hdr}
    (h : (m.map (fun p => p.1)).Nodup) :
    ((hmInsert m k v).map (fun p => p.1)).Nodup := by
  unfold hmInsert
  split
  · have he : (m.map (fun p => if p.1 = k then (k, v) else p)).map (fun p => p.1)
        = m.map (fun p => p.1) := by
      rw [List.map_map]
      apply List.map_congr_left
      intro q _
      by_cases hq : q.1 = k <;> simp [hq]
    rw [he]; exact h
  · rename_i hno
    have hk : k ∉ m.map (fun p => p.1) := by
      intro hmem
      obtain ⟨q, hq, hqe⟩ := List.mem_map.1 hmem
      exact hno (List.any_eq_true.2 ⟨q, hq, by simp [hqe]⟩)
    simp only [List.map_append, List.map_cons, List.map_nil]
    rw [List.nodup_append]
    refine ⟨h, List.nodup_singleton _, ?_⟩
    intro a ha hmem
    rw [List.mem_singleton.1 hmem] at ha
    exact hk ha

theorem mergeFold_ok (l : List Hdr) (m : HMap) (hm : mapOk m) :
    mapOk (l.foldl
      (fun m nv => hmInsert m (pyLower (sanitizeStr nv.1)) (sanitizeStr nv.1, sanitizeStr nv.2))
      m) := by
  induction l generalizing m with
  | nil => exact hm
  | cons nv rest ih =>
    apply ih
    exact ⟨hmInsert_entries hm.1 ⟨rfl, cleanStr_sanitizeStr _, cleanStr_sanitizeStr _⟩,
      hmInsert_keys_nodup hm.2⟩

theorem mergeHeaders_ok (d u : List Hdr) : mapOk (mergeHeaders d u) := by
  unfold mergeHeaders
  exact mergeFold_ok u _ (mergeFold_ok d [] ⟨by simp, by simp⟩)

theorem hmPop_perm {m : HMap} {k : String} {v : Hdr} {m' : HMap}
    (h : hmPop m k = some (v, m')) : m.Perm ((k, v) :: m') := by
  induction m generalizing m' with
  | nil => simp [hmPop] at h
  | cons p rest ih =>
    unfold hmPop at h
    split at h
    · rename_i hpk
      simp only [Option.some.injEq, Prod.mk.injEq] at h
      obtain ⟨hv, hm'⟩ := h
      have hp : p = (k, v) := by
        obtain ⟨p1, p2⟩ := p
        simp only at hpk hv
        rw [hpk, hv]
      rw [hp, hm']
    · rename_i hpk
      cases h2 : hmPop rest k with
      | none => rw [h2] at h; exact absurd h (by simp)
      | some r =>
        obtain ⟨v2, m2⟩ := r
        rw [h2] at h
        simp only [Option.some.injEq, Prod.mk.injEq] at h
        obtain ⟨hv, hm'⟩ := h
        subst hv
        rw [← hm']
        exact ((ih h2).cons p).trans (List.Perm.swap _ _ _)

theorem hmPop_none {m : HMap} {k : String} (h : hmPop m k = none) :
    ∀ p ∈ m, ¬ p.1 = k := by
  induction m with
  | nil => simp
  | cons p rest ih =>
    unfold hmPop at h
    split at h
    · exact absurd h (by simp)
    · rename_i hpk
      cases h2 : hmPop rest k with
      | none =>
        intro q hq
        rcases List.mem_cons.1 hq with rfl | hq'
        · exact hpk
        · exact ih h2 q hq'
      | some r => rw [h2] at h; obtain ⟨v2, m2⟩ := r; exact absurd h (by simp)

theorem hmPop_find? {m : HMap} {k : String} {v : Hdr} {m' : HMap}
    (h : hmPop m k = some (v, m')) :
    m.find? (fun p => p.1 = k) = some (k, v) := by
  induction m generalizing m' with
  | nil => simp [hmPop] at h
  | cons p rest ih =>
    unfold hmPop at h
    split at h
    · rename_i hpk
      simp only [Option.some.injEq, Prod.mk.injEq] at h
      have hp : p = (k, v) := by
        obtain ⟨p1, p2⟩ := p
        simp only at hpk h
        rw [hpk, h.1]
      rw [List.find?_cons_of_pos _ (by simp [hpk]), hp]
    · rename_i hpk
      cases h2 : hmPop rest k with
      | none => rw [h2] at h; exact absurd h (by simp)
      | some r =>
        obtain ⟨v2, m2⟩ := r
        rw [h2] at h
        simp only [Option.some.injEq, Prod.mk.injEq] at h
        rw [List.find?_cons_of_neg _ (by simp [hpk])]
        rw [h.1] at h2
        exact ih h2

theorem hmPop_none_find? {m : HMap} {k : String} (h : hmPop m k = none) :
    m.find? (fun p => p.1 = k) = none := by
  rw [List.find?_eq_none]
  intro p hp
  simpa using hmPop_none h p hp

theorem emit_perm (o : List String) (m : HMap) :
    (m.map (fun p => p.2)).Perm
      ((emitOrdered o m).1 ++ ((emitOrdered o m).2.map (fun p => p.2))) := by
  induction o generalizing m with
  | nil => simp [emitOrdered]
  | cons n rest ih =>
    cases h : hmPop m (pyLower n) with
    | none =>
      simp only [emitOrdered, h]
      exact ih m
    | some r =>
      obtain ⟨v, m'⟩ := r
      have h1 : (m.map (fun p => p.2)).Perm (v :: m'.map (fun p => p.2)) := by
        have := (hmPop_perm h).map (fun p : String × Hdr => p.2)
        simpa using this
      simp only [emitOrdered, h]
      exact h1.trans ((ih m').cons v)

theorem canonicalize_eq (d u : List Hdr) (o : List String) :
    canonicalize_headers d u o =
      (emitOrdered o (mergeHeaders d u)).1
        ++ (emitOrdered o (mergeHeaders d u)).2.map (fun p => p.2) := rfl

theorem canonicalize_perm_naive (d u : List Hdr) (o : List String) :
    (naiveMerge d u).Perm (canonicalize_headers d u o) := by
  rw [canonicalize_eq]
  exact emit_perm o (mergeHeaders d u)

/-- C4: For all default and user header inputs, every name and value in the
output of `canonicalize_headers` contains no CR, LF or NUL byte (the bytes
are silently deleted, never raised as errors), and the number of emitted
headers equals what a naive merge of the sanitized inputs would produce:
sanitization creates no new headers. -/
theorem c4_sanitization_injection_immunity (d u : List Hdr) (o : List String) :
    (∀ p ∈ canonicalize_headers d u o, cleanStr p.1 ∧ cleanStr p.2) ∧
    (canonicalize_headers d u o).length = (naiveMerge d u).length := by
  have hperm := canonicalize_perm_naive d u o
  constructor
  · intro p hp
    have hp' : p ∈ naiveMerge d u := hperm.mem_iff.2 hp
    obtain ⟨q, hq, hqe⟩ := List.mem_map.1 hp'
    have := (mergeHeaders_ok d u).1 q hq
    exact hqe ▸ ⟨this.2.1, this.2.2⟩
  · exact hperm.length_eq.symm

/-- C9: the list returned by `canonicalize_headers` contains at most one
entry per lowercased header name: no two emitted (name, value) pairs have
names equal ignoring case. -/
theorem c9_output_names_unique (d u : List Hdr) (o : List String) :
    (canonicalize_headers d u o).Pairwise (fun a b => pyLower a.1 ≠ pyLower b.1) := by
  have hperm := (canonicalize_perm_naive d u o).map (fun q : Hdr => pyLower q.1)
  have hkeys : (naiveMerge d u).map (fun q : Hdr => pyLower q.1)
      = (mergeHeaders d u).map (fun p => p.1) := by
    unfold naiveMerge
    rw [List.map_map]
    apply List.map_congr_left
    intro p hp
    exact (((mergeHeaders_ok d u).1 p hp).1).symm
  have hnd : ((canonicalize_headers d u o).map (fun q : Hdr => pyLower q.1)).Nodup := by
    apply hperm.nodup
    rw [hkeys]
    exact (mergeHeaders_ok d u).2
  rw [List.Nodup, List.pairwise_map] at hnd
  exact hnd

/-! Lemmas towards the amended order-stability statement (C3). -/

theorem firstDedup_subset {x : String} : ∀ {l : List String}, x ∈ firstDedup l → x ∈ l := by
  intro l
  induction l using firstDedup.induct with
  | case1 => simp [firstDedup]
  | case2 k ks ih =>
    intro hx
    rw [firstDedup] at hx
    rcases List.mem_cons.1 hx with rfl | hx'
    · exact List.mem_cons_self _ _
    · exact List.mem_cons_of_mem _ (List.mem_of_mem_filter (ih hx'))

theorem firstDedup_filter (k : String) : ∀ l : List String,
    firstDedup (l.filter (fun x => x ≠ k)) = (firstDedup l).filter (fun x => x ≠ k) := by
  intro l
  induction l using firstDedup.induct with
  | case1 => simp [firstDedup]
  | case2 a ls ih =>
    by_cases hak : a = k
    · subst hak
      rw [List.filter_cons_of_neg (by simp), firstDedup,
        List.filter_cons_of_neg (by simp)]
      have hid : (firstDedup (ls.filter (fun x => x ≠ a))).filter (fun x => x ≠ a)
          = firstDedup (ls.filter (fun x => x ≠ a)) := by
        apply List.filter_eq_self.2
        intro b hb
        have := List.of_mem_filter (firstDedup_subset hb)
        simpa using this
      exact hid.symm
    · rw [List.filter_cons_of_pos (by simp [hak]), firstDedup, firstDedup,
        List.filter_cons_of_pos (by simp [hak])]
      congr 1
      rw [← ih]
      congr 1
      rw [List.filter_filter, List.filter_filter]
      apply List.filter_congr
      intro b _
      rw [Bool.and_comm]

theorem filterMap_guard {f g : String → Option Hdr} {k : String}
    (hgk : g k = none) (hgx : ∀ x, x ≠ k → g x = f x) :
    ∀ l : List String, l.filterMap g = (l.filter (fun x => x ≠ k)).filterMap f := by
  intro l
  induction l with
  | nil => simp
  | cons a ls ih =>
    by_cases hak : a = k
    · subst hak
      rw [List.filter_cons_of_neg (by simp), List.filterMap_cons, hgk]
      exact ih
    · rw [List.filter_cons_of_pos (by simp [hak]), List.filterMap_cons,
        List.filterMap_cons, hgx a hak]
      cases f a <;> simp [ih]

theorem hmPop_eq_filter {m : HMap} {k : String} {v : Hdr} {m' : HMap}
    (hnd : (m.map (fun p => p.1)).Nodup) (h : hmPop m k = some (v, m')) :
    m' = m.filter (fun p => ¬ p.1 = k) := by
  induction m generalizing m' with
  | nil => simp [hmPop] at h
  | cons p rest ih =>
    rw [List.map_cons, List.nodup_cons] at hnd
    unfold hmPop at h
    split at h
    · rename_i hpk
      simp only [Option.some.injEq, Prod.mk.injEq] at h
      rw [List.filter_cons_of_neg (by simp [hpk])]
      rw [← h.2]
      symm
      apply List.filter_eq_self.2
      intro q hq
      have : q.1 ≠ k := by
        intro hqk
        apply hnd.1
        rw [hpk, ← hqk]
        exact List.mem_map.2 ⟨q, hq, rfl⟩
      simpa using this
    · rename_i hpk
      cases h2 : hmPop rest k with
      | none => rw [h2] at h; exact absurd h (by simp)
      | some r =>
        obtain ⟨v2, m2⟩ := r
        rw [h2] at h
        simp only [Option.some.injEq, Prod.mk.injEq] at h
        rw [h.1] at h2
        rw [List.filter_cons_of_pos (by simp [hpk]), ← h.2, ih hnd.2 h2]

theorem find?_filter_ne {m : HMap} {k x : String} (hx : x ≠ k) :
    (m.filter (fun p => ¬ p.1 = k)).find? (fun p => p.1 = x)
      = m.find? (fun p => p.1 = x) := by
  induction m with
  | nil => simp
  | cons p rest ih =>
    by_cases hpk : p.1 = k
    · rw [List.filter_cons_of_neg (by simp [hpk])]
      rw [List.find?_cons_of_neg _ (by simp only [hpk, decide_eq_true_eq]; exact fun h => hx h.symm)]
      exact ih
    · rw [List.filter_cons_of_pos (by simp [hpk])]
      by_cases hpx : p.1 = x
      · rw [List.find?_cons_of_pos _ (by simp [hpx]),
          List.find?_cons_of_pos _ (by simp [hpx])]
      · rw [List.find?_cons_of_neg _ (by simp [hpx]),
          List.find?_cons_of_neg _ (by simp [hpx])]
        exact ih

theorem find?_filter_self {m : HMap} {k : String} :
    (m.filter (fun p => ¬ p.1 = k)).find? (fun p => p.1 = k) = none := by
  rw [List.find?_eq_none]
  intro p hp
  have := List.of_mem_filter hp
  simpa using this

theorem emit_spec (o : List String) (m : HMap)
    (hnd : (m.map (fun p => p.1)).Nodup) :
    (emitOrdered o m).1 = specOrderedPart m o ∧
    (emitOrdered o m).2 = m.filter (fun p => ¬ (o.map pyLower).contains p.1) := by
  induction o generalizing m with
  | nil =>
    refine ⟨by simp [emitOrdered, specOrderedPart, firstDedup], ?_⟩
    simp only [emitOrdered, List.map_nil]
    symm
    apply List.filter_eq_self.2
    intro p _
    simp
  | cons n rest ih =>
    cases h : hmPop m (pyLower n) with
    | some r =>
      obtain ⟨v, m'⟩ := r
      have hfind := hmPop_find? h
      have hm' := hmPop_eq_filter hnd h
      have hnd' : (m'.map (fun p => p.1)).Nodup := by
        rw [hm']
        exact ((List.filter_sublist m).map _).nodup hnd
      obtain ⟨ih1, ih2⟩ := ih m' hnd'
      have he1 : (emitOrdered (n :: rest) m).1 = v :: (emitOrdered rest m').1 := by
        simp [emitOrdered, h]
      have he2 : (emitOrdered (n :: rest) m).2 = (emitOrdered rest m').2 := by
        simp [emitOrdered, h]
      constructor
      · rw [he1, ih1]
        unfold specOrderedPart
        rw [List.map_cons, firstDedup, List.filterMap_cons, hfind]
        simp only [Option.map_some']
        congr 1
        rw [firstDedup_filter]
        rw [← filterMap_guard (g := fun k =>
            (m'.find? (fun p => p.1 = k)).map (fun p => p.2))]
        · rw [hm', find?_filter_self]
          rfl
        · intro x hx
          rw [hm', find?_filter_ne hx]
      · rw [he2, ih2, hm', List.filter_filter]
        apply List.filter_congr
        intro p _
        by_cases h1 : p.1 = pyLower n <;>
          by_cases h2 : (List.map pyLower rest).contains p.1 <;>
            simp [h1, h2, List.contains_cons]
    | none =>
      have hfind := hmPop_none_find? h
      have hall := hmPop_none h
      obtain ⟨ih1, ih2⟩ := ih m hnd
      have he1 : (emitOrdered (n :: rest) m).1 = (emitOrdered rest m).1 := by
        simp [emitOrdered, h]
      have he2 : (emitOrdered (n :: rest) m).2 = (emitOrdered rest m).2 := by
        simp [emitOrdered, h]
      constructor
      · rw [he1, ih1]
        unfold specOrderedPart
        rw [List.map_cons, firstDedup, List.filterMap_cons, hfind]
        simp only [Option.map_none']
        rw [firstDedup_filter]
        rw [← filterMap_guard (g := fun k =>
            (m.find? (fun p => p.1 = k)).map (fun p => p.2))]
        · rw [hfind]; rfl
        · intro _ _; rfl
      · rw [he2, ih2]
        apply List.filter_congr
        intro p hp
        have h1 : ¬ p.1 = pyLower n := hall p hp
        by_cases h2 : (List.map pyLower rest).contains p.1 <;>
          simp [h1, h2, List.contains_cons]

/-- C3 counterexample: with defaults `[("A","1")]`, user mapping
`{b ↦ "2", a ↦ "3"}` (insertion order `b` then `a`) and an empty order
list, every output header is unordered and originates from the user
mapping, so the claim requires the emission order `["b", "a"]` (the user
mapping's insertion order); the code instead keeps the override of the
default `A` at the default's position and emits `["a", "b"]`. -/
theorem c3_counterexample :
    (canonicalize_headers [("A", "1")] [("b", "2"), ("a", "3")] []).map (fun p => p.1)
      = ["a", "b"] ∧ (["a", "b"] : List String) ≠ ["b", "a"] := by
  constructor
  · decide
  · decide

/-- C3 (amended): `canonicalize_headers` emits first exactly those merged
entries whose lowercase name appears in the order list, positioned by first
occurrence in the order list, and then every remaining merged entry in the
merged map's insertion order — an entry overriding a default keeps the
default's position, and only headers absent from the defaults follow in the
user mapping's insertion order. -/
theorem c3_order_stability_amended (d u : List Hdr) (o : List String) :
    canonicalize_headers d u o =
      specOrderedPart (mergeHeaders d u) o ++ specRemaining (mergeHeaders d u) o := by
  obtain ⟨h1, h2⟩ := emit_spec o (mergeHeaders d u) (mergeHeaders_ok d u).2
  rw [canonicalize_eq, h1, h2]
  rfl

/-! ## Connection pool lemmas -/

theorem bucketGet_ok {p : Pool} (hp : poolInv p) (k : PKey) :
    (bucketGet p k).length ≤ p.maxPerHost ∧ ∀ c ∈ bucketGet p k, c.closed = false := by
  unfold bucketGet
  cases hf : p.buckets.find? (fun b => b.1 = k) with
  | none => simp
  | some b =>
    have hb : b ∈ p.buckets := List.mem_of_find?_eq_some hf
    simpa using hp b hb

theorem poolInv_bucketSet {p : Pool} {k : PKey} {l : List Conn} (hp : poolInv p)
    (hlen : l.length ≤ p.maxPerHost) (hopen : ∀ c ∈ l, c.closed = false) :
    poolInv (bucketSet p k l) := by
  unfold bucketSet
  split
  · intro kb hkb
    obtain ⟨b, hb, hbe⟩ := List.mem_map.1 hkb
    by_cases hbk : b.1 = k
    · rw [if_pos hbk] at hbe
      rw [← hbe]
      exact ⟨hlen, hopen⟩
    · rw [if_neg hbk] at hbe
      exact hbe ▸ hp b hb
  · intro kb hkb
    rcases List.mem_append.1 hkb with hb | hb
    · exact hp kb hb
    · rw [List.mem_singleton.1 hb]
      exact ⟨hlen, hopen⟩

theorem popOpen_sublist : ∀ l : List Conn, (popOpen l).2.Sublist l := by
  intro l
  induction l with
  | nil => simp [popOpen]
  | cons c rest ih =>
    unfold popOpen
    split
    · exact ih.trans (List.sublist_cons_self c rest)
    · exact List.sublist_cons_self c rest

theorem poolInv_step (p : Pool) (op : PoolOp) (hp : poolInv p) :
    poolInv (p.step op) := by
  cases op with
  | acquire k =>
    show poolInv (bucketSet p k (popOpen (bucketGet p k)).2)
    obtain ⟨hlen, hopen⟩ := bucketGet_ok hp k
    have hsub := popOpen_sublist (bucketGet p k)
    exact poolInv_bucketSet hp (le_trans hsub.length_le hlen)
      (fun c hc => hopen c (hsub.mem hc))
  | release c =>
    show poolInv (p.release c)
    unfold Pool.release
    split
    · exact hp
    · rename_i hcl
      show poolInv (if p.maxPerHost ≤ (bucketGet p c.key).length then p
        else bucketSet p c.key (c :: bucketGet p c.key))
      split
      · exact hp
      · rename_i hfull
        obtain ⟨hlen, hopen⟩ := bucketGet_ok hp c.key
        apply poolInv_bucketSet hp
        · simpa using Nat.lt_of_not_le hfull
        · intro d hd
          rcases List.mem_cons.1 hd with rfl | hd'
          · simpa using hcl
          · exact hopen d hd'
  | closeAll =>
    intro kb hkb
    exact absurd hkb (by simp [Pool.step, Pool.closeAll])

theorem poolInv_run (p : Pool) (ops : List PoolOp) (hp : poolInv p) :
    poolInv (p.run ops) := by
  induction ops generalizing p with
  | nil => exact hp
  | cons op rest ih => exact ih _ (poolInv_step p op hp)

/-- C10: `ConnectionPool.release` never stores a closed connection and
never grows a bucket beyond `max_per_host` (a release into a full bucket
closes the connection instead); hence after any sequence of
acquire/release/close operations starting from a fresh pool, every idle
connection was open at insertion time and every bucket's length is at most
`max_per_host`. -/
theorem c10_pool_invariant (maxPerHost : Nat) (ops : List PoolOp) :
    poolInv ((emptyPool maxPerHost).run ops) := by
  apply poolInv_run
  intro kb hkb
  simp [emptyPool] at hkb

/-- C1 (evidence for the code bug): `ConnectionPool`'s key is only
`(scheme, host, port)`, so the triples `Client._make_request` hands the
pool for requests through two different SOCKS5 proxies — and for a direct
request — to the same target coincide, and a connection released after use
with one proxy is yielded again by an acquire made on behalf of the other
proxy's request.  (The claim itself is right about the intent:
`_make_request` passes `proxy_url=` to `ConnectionPool.acquire`, whose
signature does not accept it.) -/
theorem c1_pool_key_ignores_proxy :
    clientPoolKey "http" "example.com" 80 (some ⟨"socks5", "proxy1", 1080⟩)
      = .ok ("http", "example.com", 80) ∧
    clientPoolKey "http" "example.com" 80 (some ⟨"socks5", "proxy2", 1080⟩)
      = .ok ("http", "example.com", 80) ∧
    clientPoolKey "http" "example.com" 80 none = .ok ("http", "example.com", 80) ∧
    (((emptyPool 4).release ⟨0, "http", "example.com", 80, false⟩).acquire
        ("http", "example.com", 80)).1 = some ⟨0, "http", "example.com", 80, false⟩ := by
  refine ⟨?_, ?_, rfl, rfl⟩ <;> rfl

/-! ## SOCKS5 -/

/-- C2 (evidence for the code bug): under a `socks5://` proxy URL the
handshake passes `resolve_hostname=False`, yet for target
(host=`localhost`, port=80) — with the resolver returning `127.0.0.1` —
the CONNECT request `_socks5_connect` builds still carries `ATYP=0x03`
(DOMAINNAME) with the length-prefixed host bytes, not `ATYP=0x01` with the
IPv4 address: the assignments that would switch to the IP form sit after
the `raise` inside `if not infos:` and never execute. -/
theorem c2_socks5_connect_sends_domainname :
    resolveHostnameFlag "socks5://proxy:1080" = false ∧
    socks5ConnectRequest (fun _ => .infos [[127, 0, 0, 1]]) false
        [108, 111, 99, 97, 108, 104, 111, 115, 116] 80
      = .ok ([5, 1, 0, 3, 9] ++ [108, 111, 99, 97, 108, 104, 111, 115, 116] ++ [0, 80]) := by
  exact ⟨rfl, rfl⟩

/-! ## Retry controller -/

theorem retryGo_succ {α : Type} (f : Nat → CallResult α) (v : α) (s : Nat)
    (hs : s ∉ retryableStatusCodes) (k : Nat) :
    ∀ (rem i : Nat), k < rem → (∀ j, j < k → f (i + j) = .failure true) →
      f (i + k) = .success v s →
      retryGo f retryableStatusCodes rem i = (.ok v, i + k + 1) := by
  induction k with
  | zero =>
    intro rem i h0 _ hsucc
    rw [Nat.add_zero] at hsucc
    cases rem with
    | zero => omega
    | succ m =>
      unfold retryGo
      rw [hsucc]
      simp [hs]
  | succ k ih =>
    intro rem i hk hfail hsucc
    cases rem with
    | zero => omega
    | succ m =>
      have hm : ¬ m = 0 := by omega
      have hf0 : f i = .failure true := by
        have := hfail 0 (by omega)
        simpa using this
      unfold retryGo
      rw [hf0]
      simp only [hm, if_false]
      have hrec := ih m (i + 1) (by omega)
        (fun j hj => by
          have := hfail (j + 1) (by omega)
          rw [show i + (j + 1) = i + 1 + j by omega] at this
          exact this)
        (by rw [show i + 1 + k = i + (k + 1) by omega]; exact hsucc)
      rw [hrec, show i + 1 + k + 1 = i + (k + 1) + 1 from by omega]

/-- C6: with the client configured to `max_retries = r`, for an inner
request function that fails with a retriable error exactly `k < r` times
and then succeeds (with a non-retriable status), `Client.request` returns
the success value having invoked `_make_request` exactly `k + 1` times;
and with `max_retries = 0` the client executes `_make_request` exactly
once, with no retry machinery. -/
theorem c6_retry_count {α : Type} (r k : Nat) (f : Nat → CallResult α) (v : α) (s : Nat)
    (hk : k < r)
    (hfail : ∀ i, i < k → f i = .failure true)
    (hsucc : f k = .success v s)
    (hs : s ∉ retryableStatusCodes) :
    clientRequest r f = (.ok v, k + 1) ∧
    ∀ (g : Nat → CallResult α), (clientRequest 0 g).2 = 1 := by
  constructor
  · have hr : ¬ r = 0 := by omega
    unfold clientRequest
    rw [if_neg hr]
    unfold retry_with_backoff
    have := retryGo_succ f v s hs k (r + 1) 0 (by omega)
      (fun j hj => by simpa using hfail j hj)
      (by simpa using hsucc)
    simpa using this
  · intro g
    unfold clientRequest
    rw [if_pos rfl]
    cases g 0 <;> rfl

/-- Witness for `c6_retry_count` at `r = 3`, `k = 2`. -/
theorem c6_retry_count_witness :
    clientRequest 3 (fun i => if i < 2 then CallResult.failure true else .success 42 200)
        = (.ok 42, 3) ∧
    (clientRequest 0 (fun _ => CallResult.success 7 500)).2 = 1 := by
  have h := c6_retry_count 3 2
    (fun i => if i < 2 then CallResult.failure true else .success 42 200) 42 200
    (by omega)
    (fun i hi => by simp [hi])
    (by norm_num)
    (by decide)
  exact ⟨h.1, h.2 (fun _ => CallResult.success 7 500)⟩

/-! ## Compression codec -/

theorem decode_body_token (c : Codecs) (body : List Nat) (ce t : String)
    (hce : ¬ ce = "") (hb : ¬ body = [])
    (hsplit : pySplitComma (pyStrip (pyLower ce)) = [t]) :
    decode_body c body ce = decodeSingle c body (pyStrip t) := by
  unfold decode_body
  rw [if_neg (by push_neg; exact ⟨hce, hb⟩)]
  simp only [hsplit, List.map_cons, List.map_nil, List.reverse_cons, List.reverse_nil,
    List.nil_append, List.foldl_cons, List.foldl_nil]

/-- C5: given the round-trip contracts of the external codecs — gzip
inverts a gzip stream, raw-DEFLATE inflation inverts a raw stream and
refuses a zlib-wrapped one, zlib inflation inverts the zlib-wrapped one,
brotli (available) inverts a brotli stream, all encoded forms non-empty —
`decode_body` applied to a correctly encoded form of `B` under the
matching `Content-Encoding` token returns exactly `B` (for `deflate`, both
the raw and the zlib-wrapped form), and for every single encoding token
outside {gzip, deflate, br} it returns the body unchanged. -/
theorem c5_decode_roundtrip (c : Codecs) (B encG encDr encDz encBr : List Nat)
    (E t : String)
    (hg : c.gunzip encG = some B) (hgne : encG ≠ [])
    (hdr : c.inflateRaw encDr = some B) (hdrne : encDr ≠ [])
    (hdz1 : c.inflateRaw encDz = none) (hdz2 : c.inflateZlib encDz = some B)
    (hdzne : encDz ≠ [])
    (hba : c.brotliAvailable = true) (hbr : c.brDecompress encBr = some B)
    (hbrne : encBr ≠ [])
    (hsplit : pySplitComma (pyStrip (pyLower E)) = [t])
    (ht : pyStrip t ≠ "gzip" ∧ pyStrip t ≠ "deflate" ∧ pyStrip t ≠ "br") :
    decode_body c encG "gzip" = B ∧
    decode_body c encDr "deflate" = B ∧
    decode_body c encDz "deflate" = B ∧
    decode_body c encBr "br" = B ∧
    decode_body c B E = B := by
  refine ⟨?_, ?_, ?_, ?_, ?_⟩
  · rw [decode_body_token c encG "gzip" "gzip" (by decide) hgne rfl]
    show decodeSingle c encG "gzip" = B
    unfold decodeSingle
    rw [if_pos rfl, hg]
    rfl
  · rw [decode_body_token c encDr "deflate" "deflate" (by decide) hdrne rfl]
    show decodeSingle c encDr "deflate" = B
    unfold decodeSingle
    rw [if_neg (by decide), if_pos rfl, hdr]
  · rw [decode_body_token c encDz "deflate" "deflate" (by decide) hdzne rfl]
    show decodeSingle c encDz "deflate" = B
    unfold decodeSingle
    rw [if_neg (by decide), if_pos rfl, hdz1, hdz2]
    rfl
  · rw [decode_body_token c encBr "br" "br" (by decide) hbrne rfl]
    show decodeSingle c encBr "br" = B
    unfold decodeSingle
    rw [if_neg (by decide), if_neg (by decide), if_pos rfl, if_pos hba, hbr]
    rfl
  · by_cases hE : E = ""
    · unfold decode_body
      rw [if_pos (Or.inl hE)]
    · by_cases hB : B = []
      · unfold decode_body
        rw [if_pos (Or.inr hB)]
      · rw [decode_body_token c B E t hE hB hsplit]
        unfold decodeSingle
        rw [if_neg ht.1, if_neg ht.2.1, if_neg ht.2.2]

/-- Witness for `c5_decode_roundtrip` with the toy codec pack at
`B = [9]`. -/
theorem c5_decode_roundtrip_witness :
    decode_body toyCodecs [31, 9] "gzip" = [9] ∧
    decode_body toyCodecs [1, 9] "deflate" = [9] ∧
    decode_body toyCodecs [120, 9] "deflate" = [9] ∧
    decode_body toyCodecs [7, 9] "br" = [9] ∧
    decode_body toyCodecs [9] "zstd" = [9] := by
  exact c5_decode_roundtrip toyCodecs [9] [31, 9] [1, 9] [120, 9] [7, 9] "zstd" "zstd"
    rfl (by simp) rfl (by simp) rfl rfl (by simp) rfl rfl (by simp) rfl
    (by refine ⟨?_, ?_, ?_⟩ <;> decide)

/-! ## Token bucket -/

/-- C7 counterexample: on a bucket with `rate = 1`, `capacity = 1`, a
blocking `acquire(2)` (the runtime guarantees hold: elapsed times `0` and
`1 ≥ wait_time = 1`) drives `tokens` to `-1`, and the next acquire's first
refill with elapsed `0` then observes `tokens = -1 < 0`. -/
theorem c7_counterexample :
    goodRun (TokenBucketInit 1 1) [⟨true, 2, 0, 1⟩, ⟨true, 1, 0, 2⟩] ∧
    (-1 : ℚ) ∈ (runBucket (TokenBucketInit 1 1) [⟨true, 2, 0, 1⟩, ⟨true, 1, 0, 2⟩]).2 ∧
    ¬ (0 : ℚ) ≤ -1 := by
  refine ⟨?_, ?_, by norm_num⟩
  · simp only [goodRun, Bucket.acquire, Bucket.refill, TokenBucketInit]
    norm_num
  · simp only [runBucket, Bucket.acquire, Bucket.refill, TokenBucketInit]
    norm_num

theorem c7_aux : ∀ (evs : List AcquireEv) (b : Bucket),
    0 < b.rate → 0 ≤ b.tokens → b.tokens ≤ b.capacity →
    goodRun b evs → boundedReq b.capacity evs →
    ∀ v ∈ (runBucket b evs).2, 0 ≤ v ∧ v ≤ b.capacity := by
  intro evs
  induction evs with
  | nil =>
    intro b _ _ _ _ _ v hv
    simp [runBucket] at hv
  | cons ev rest ih =>
    intro b hr h0 hc hg hb
    obtain ⟨he1, hn, hwait, hg'⟩ := hg
    have hcap : 0 ≤ b.capacity := le_trans h0 hc
    have hnc : ev.n ≤ b.capacity := hb ev (List.mem_cons_self _ _)
    have hb' : boundedReq b.capacity rest := fun e he => hb e (List.mem_cons_of_mem _ he)
    have h1low : 0 ≤ (b.refill ev.e1).tokens := by
      unfold Bucket.refill
      simp only
      exact le_min hcap (by positivity)
    have h1up : (b.refill ev.e1).tokens ≤ b.capacity := by
      unfold Bucket.refill
      simp only
      exact min_le_left _ _
    have hrun : (runBucket b (ev :: rest)).2
        = (b.acquire ev).2 ++ (runBucket (b.acquire ev).1 rest).2 := rfl
    by_cases henough : ev.n ≤ (b.refill ev.e1).tokens
    · have hacq : b.acquire ev =
          ({ b.refill ev.e1 with tokens := (b.refill ev.e1).tokens - ev.n },
            [(b.refill ev.e1).tokens]) := by
        unfold Bucket.acquire
        rw [if_pos henough]
      intro v hv
      rw [hrun, hacq] at hv
      simp only [List.mem_append, List.mem_singleton] at hv
      rcases hv with rfl | hv'
      · exact ⟨h1low, h1up⟩
      · exact ih { b.refill ev.e1 with tokens := (b.refill ev.e1).tokens - ev.n }
          (by exact hr) (by show (0:ℚ) ≤ (b.refill ev.e1).tokens - ev.n; linarith)
          (by show (b.refill ev.e1).tokens - ev.n ≤ b.capacity; linarith)
          (by rw [hacq] at hg'; exact hg') hb' v hv'
    · cases hbl : ev.blocking with
      | false =>
        have hacq : b.acquire ev = (b.refill ev.e1, [(b.refill ev.e1).tokens]) := by
          unfold Bucket.acquire
          rw [if_neg henough, if_pos hbl]
        intro v hv
        rw [hrun, hacq] at hv
        simp only [List.mem_append, List.mem_singleton] at hv
        rcases hv with rfl | hv'
        · exact ⟨h1low, h1up⟩
        · exact ih (b.refill ev.e1) (by exact hr) h1low h1up
            (by rw [hacq] at hg'; exact hg') hb' v hv'
      | true =>
        have hacq : b.acquire ev =
            ({ (b.refill ev.e1).refill ev.e2 with
                tokens := ((b.refill ev.e1).refill ev.e2).tokens - ev.n },
              [(b.refill ev.e1).tokens, ((b.refill ev.e1).refill ev.e2).tokens]) := by
          unfold Bucket.acquire
          rw [if_neg henough, if_neg (by simp [hbl])]
        have hlt : (b.refill ev.e1).tokens < ev.n := not_le.1 henough
        have hwait' := hwait hbl henough
        have h2low : ev.n ≤ ((b.refill ev.e1).refill ev.e2).tokens := by
          show ev.n ≤ min ((b.refill ev.e1).capacity)
            ((b.refill ev.e1).tokens + ev.e2 * (b.refill ev.e1).rate)
          have hc1 : (b.refill ev.e1).capacity = b.capacity := rfl
          have hr1 : (b.refill ev.e1).rate = b.rate := rfl
          rw [hc1, hr1]
          refine le_min hnc ?_
          have := (div_le_iff₀ hr).1 hwait'
          linarith
        have h2up : ((b.refill ev.e1).refill ev.e2).tokens ≤ b.capacity := by
          show min ((b.refill ev.e1).capacity)
            ((b.refill ev.e1).tokens + ev.e2 * (b.refill ev.e1).rate) ≤ b.capacity
          exact min_le_left _ _
        intro v hv
        rw [hrun, hacq] at hv
        simp only [List.mem_append, List.mem_cons, List.not_mem_nil, or_false] at hv
        rcases hv with (rfl | rfl) | hv'
        · exact ⟨h1low, h1up⟩
        · exact ⟨le_trans (le_of_lt hn) h2low, h2up⟩
        · exact ih { (b.refill ev.e1).refill ev.e2 with
              tokens := ((b.refill ev.e1).refill ev.e2).tokens - ev.n }
            (by exact hr)
            (by show (0:ℚ) ≤ ((b.refill ev.e1).refill ev.e2).tokens - ev.n; linarith)
            (by show ((b.refill ev.e1).refill ev.e2).tokens - ev.n ≤ b.capacity; linarith)
            (by rw [hacq] at hg'; exact hg') hb' v hv'

/-- C7 (amended): for a `TokenBucket` with positive rate and any sequence
of `acquire(n)` calls with `0 < n ≤ capacity`, in blocking or non-blocking
mode and under the runtime's elapsed-time guarantees, every token value
observed after a refill lies in `[0, capacity]`.  (Without the
`n ≤ capacity` bound the lower bound fails — see the counterexample — while
`tokens ≤ capacity` after a refill holds unconditionally by the `min`.) -/
theorem c7_token_bounds_amended (b : Bucket) (evs : List AcquireEv)
    (hr : 0 < b.rate) (h0 : 0 ≤ b.tokens) (hc : b.tokens ≤ b.capacity)
    (hg : goodRun b evs) (hb : boundedReq b.capacity evs) :
    ∀ v ∈ (runBucket b evs).2, 0 ≤ v ∧ v ≤ b.capacity :=
  c7_aux evs b hr h0 hc hg hb

/-- Witness for `c7_token_bounds_amended` on a one-call trace. -/
theorem c7_token_bounds_amended_witness :
    (1 : ℚ) ∈ (runBucket (TokenBucketInit 1 1) [⟨true, 1, 0, 0⟩]).2 ∧
    (0 ≤ (1 : ℚ) ∧ (1 : ℚ) ≤ (TokenBucketInit 1 1).capacity) := by
  have hmem : (1 : ℚ) ∈ (runBucket (TokenBucketInit 1 1) [⟨true, 1, 0, 0⟩]).2 := by
    simp only [runBucket, Bucket.acquire, Bucket.refill, TokenBucketInit]
    norm_num
  refine ⟨hmem, c7_token_bounds_amended (TokenBucketInit 1 1) [⟨true, 1, 0, 0⟩]
    (by norm_num [TokenBucketInit]) (by norm_num [TokenBucketInit])
    (by norm_num [TokenBucketInit])
    (by simp only [goodRun, Bucket.acquire, Bucket.refill, TokenBucketInit]; norm_num)
    ?_ 1 hmem⟩
  intro e he
  simp only [List.mem_singleton] at he
  subst he
  norm_num [TokenBucketInit]

/-! ## Profile catalog (deep-copy isolation) -/

mutual
theorem allocTree_ext : ∀ (h : Heap) (t : PyTree),
    ∃ ext, (allocTree h t).1.cells = h.cells ++ ext
  | h, .prim s => ⟨[.prim s], by simp [allocTree]⟩
  | h, .arr es => by
    obtain ⟨e1, h1⟩ := allocList_ext h es
    exact ⟨e1 ++ [.arr (allocList h es).2], by simp [allocTree, h1]⟩
  | h, .dict es => by
    obtain ⟨e1, h1⟩ := allocEntries_ext h es
    exact ⟨e1 ++ [.dict (allocEntries h es).2], by simp [allocTree, h1]⟩

theorem allocList_ext : ∀ (h : Heap) (ts : List PyTree),
    ∃ ext, (allocList h ts).1.cells = h.cells ++ ext
  | h, [] => ⟨[], by simp [allocList]⟩
  | h, t :: ts => by
    obtain ⟨e1, h1⟩ := allocTree_ext h t
    obtain ⟨e2, h2⟩ := allocList_ext (allocTree h t).1 ts
    exact ⟨e1 ++ e2, by simp [allocList, h2, h1]⟩

theorem allocEntries_ext : ∀ (h : Heap) (ts : List (String × PyTree)),
    ∃ ext, (allocEntries h ts).1.cells = h.cells ++ ext
  | h, [] => ⟨[], by simp [allocEntries]⟩
  | h, kv :: ts => by
    obtain ⟨e1, h1⟩ := allocTree_ext h kv.2
    obtain ⟨e2, h2⟩ := allocEntries_ext (allocTree h kv.2).1 ts
    exact ⟨e1 ++ e2, by simp [allocEntries, h2, h1]⟩
end

/-- The root of a deep copy is a fresh address (at or beyond the end of
the original heap). -/
theorem allocTree_root (h : Heap) (t : PyTree) :
    h.cells.length ≤ (allocTree h t).2 := by
  cases t with
  | prim s => simp [allocTree]
  | arr es =>
    obtain ⟨e1, h1⟩ := allocList_ext h es
    simp [allocTree, h1]
  | dict es =>
    obtain ⟨e1, h1⟩ := allocEntries_ext h es
    simp [allocTree, h1]

theorem optionMapM_congr {α β : Type} {f g : α → Option β} :
    ∀ {l : List α}, (∀ x ∈ l, f x = g x) → l.mapM f = l.mapM g := by
  intro l
  induction l with
  | nil => intro _; rfl
  | cons x xs ih =>
    intro hfg
    rw [List.mapM_cons, List.mapM_cons, hfg x (List.mem_cons_self _ _),
      ih (fun y hy => hfg y (List.mem_cons_of_mem _ hy))]

/-- Frame rule: reading a value out of a well-formed heap only consults the
cells below the heap's original length, so any heap agreeing there denotes
the same values. -/
theorem denote_frame (h h₂ : Heap) (hwf : heapWF h)
    (hagree : ∀ i, i < h.cells.length → h₂.cells[i]? = h.cells[i]?) :
    ∀ (fuel a : Nat), a < h.cells.length → denote h₂ fuel a = denote h fuel a := by
  intro fuel
  induction fuel with
  | zero => intro a _; rfl
  | succ fuel ih =>
    intro a ha
    unfold denote
    rw [hagree a ha]
    cases hcell : h.cells[a]? with
    | none => rfl
    | some v =>
      have hv : v ∈ h.cells := by
        obtain ⟨hn, rfl⟩ := List.getElem?_eq_some.1 hcell
        exact List.getElem_mem _
      cases v with
      | prim s => rfl
      | arr es =>
        have hmm : es.mapM (fun e => denote h₂ fuel e) = es.mapM (fun e => denote h fuel e) :=
          optionMapM_congr (fun e he => ih e (hwf _ hv e he))
        exact congrArg (Option.map PyTree.arr) hmm
      | dict es =>
        have hmm : es.mapM (fun kv => (denote h₂ fuel kv.2).map (fun t => (kv.1, t)))
            = es.mapM (fun kv => (denote h fuel kv.2).map (fun t => (kv.1, t))) := by
          apply optionMapM_congr
          intro kv hkv
          rw [ih kv.2 (hwf _ hv kv.2 (List.mem_map.2 ⟨kv, hkv, rfl⟩))]
        exact congrArg (Option.map PyTree.dict) hmm

/-- Mutations at addresses at or beyond `n` leave the cells below `n`
unchanged. -/
theorem applyMuts_agree (n : Nat) :
    ∀ (muts : List (Nat × PyVal)) (h₁ : Heap), (∀ m ∈ muts, n ≤ m.1) →
      ∀ i, i < n → (applyMuts h₁ muts).cells[i]? = h₁.cells[i]? := by
  intro muts
  induction muts with
  | nil => intro h₁ _ i _; rfl
  | cons m rest ih =>
    intro h₁ hmuts i hi
    have h1 : (applyMuts (heapUpdate h₁ m.1 m.2) rest).cells[i]?
        = (heapUpdate h₁ m.1 m.2).cells[i]? :=
      ih (heapUpdate h₁ m.1 m.2) (fun m' hm' => hmuts m' (List.mem_cons_of_mem _ hm')) i hi
    have h2 : (heapUpdate h₁ m.1 m.2).cells[i]? = h₁.cells[i]? := by
      unfold heapUpdate
      apply List.getElem?_set_ne
      have := hmuts m (List.mem_cons_self _ _)
      omega
    exact h1.trans h2

/-- C8: `get_profile` hands back a deep copy built entirely from fresh heap
cells: its root address lies beyond the registry's cells, and after any
sequence of in-place mutations confined to fresh addresses (i.e. to the
returned copy), a subsequent `get_profile` of any catalog name — alias
names that share their base profile's root address included — returns the
same profile value as before the mutations. -/
theorem c8_profile_isolation (h : Heap) (profiles : List (String × Nat)) (fuel : Nat)
    (name : String) (hwf : heapWF h)
    (hroots : ∀ p ∈ profiles, p.2 < h.cells.length)
    (hc : Heap × Nat) (hget : get_profile h profiles fuel name = some hc)
    (muts : List (Nat × PyVal)) (hmuts : ∀ m ∈ muts, h.cells.length ≤ m.1) :
    h.cells.length ≤ hc.2 ∧
    ∀ name', getProfileTree (applyMuts hc.1 muts) profiles fuel name'
      = getProfileTree h profiles fuel name' := by
  cases hfind : profiles.find? (fun p => p.1 = name) with
  | none =>
    rw [get_profile, hfind] at hget
    exact absurd hget (by simp)
  | some p =>
    simp only [get_profile, hfind] at hget
    cases hden : denote h fuel p.2 with
    | none => rw [hden] at hget; exact absurd hget (by simp)
    | some t =>
      rw [hden] at hget
      simp only [Option.map_some', Option.some.injEq] at hget
      constructor
      · rw [← hget]
        exact allocTree_root h t
      · intro name'
        unfold getProfileTree
        cases hfind' : profiles.find? (fun q => q.1 = name') with
        | none => rfl
        | some q =>
          have hq : q ∈ profiles := List.mem_of_find?_eq_some hfind'
          have hqlt : q.2 < h.cells.length := hroots q hq
          obtain ⟨ext, hext⟩ := allocTree_ext h t
          have hagree1 : ∀ i, i < h.cells.length → hc.1.cells[i]? = h.cells[i]? := by
            intro i hi
            rw [← hget, hext, List.getElem?_append, if_pos hi]
          have hagree2 : ∀ i, i < h.cells.length →
              (applyMuts hc.1 muts).cells[i]? = hc.1.cells[i]? :=
            applyMuts_agree h.cells.length muts hc.1 hmuts
          exact denote_frame h (applyMuts hc.1 muts) hwf
            (fun i hi => (hagree2 i hi).trans (hagree1 i hi)) fuel q.2 hqlt

/-- Witness for `c8_profile_isolation` on the two-cell sample registry:
mutate the copy's root (fresh address 3) and read the alias name back. -/
theorem c8_profile_isolation_witness :
    sampleHeap.cells.length ≤ sampleCopy.2 ∧
    getProfileTree (applyMuts sampleCopy.1 [(3, .prim "evil")]) sampleProfiles 3 "alias"
      = getProfileTree sampleHeap sampleProfiles 3 "alias" := by
  have h := c8_profile_isolation sampleHeap sampleProfiles 3 "chrome"
    (by decide) (by decide) sampleCopy rfl
    [(3, PyVal.prim "evil")] (by decide)
  exact ⟨h.1, h.2 "alias"⟩

end Gakido
